import Mathlib

/-!
Verification of the transcript-to-quiz backend.

This file gives a shallow embedding of the two core pipelines of the
repository and proves (or refutes) the frozen claims about them.

Part 1 embeds the quiz-generation validation pipeline of
`src/api/app.js` (`generateQuestions`): the confidence filter
(`q.confidence >= 0.6`), the structural filter (question length,
distinct options via a JS `Set`, membership of the correct answer),
the projection to the three externally visible fields, and the
minimum-yield gate (`finalQuestions.length < 3`).

JS numbers that the code compares against `0.6` are modelled as
rationals; a question object that lacks the `confidence` field is
modelled with `Option` (in JS, `undefined >= 0.6` is `false`, which the
`none` branch mirrors).
-/

/-- A parsed model question as `JSON.parse` delivers it: untrusted data.
`confidence` is `none` when the field is absent (JS `undefined`);
`context` is the strict variant's extra field. -/
structure RawQuestion where
  question : String
  options : List String
  correctAnswer : String
  confidence : Option ℚ
  context : Option String
deriving DecidableEq

/-- The projection of a question to the fields exposed to the frontend:
`({question, options, correctAnswer})`.  By construction a
`FinalQuestion` carries no `confidence` and no `context` field. -/
structure FinalQuestion where
  question : String
  options : List String
  correctAnswer : String
deriving DecidableEq

/-- The map `({question, options, correctAnswer}) => ({question, options, correctAnswer})`
from `src/api/app.js` line 120. -/
def projectQuestion (q : RawQuestion) : FinalQuestion :=
  { question := q.question, options := q.options, correctAnswer := q.correctAnswer }

/-- The confidence filter `q => q.confidence >= 0.6` of `src/api/app.js`
line 102.  A missing (`undefined`) confidence compares as `false` in JS,
hence the `none` branch. -/
def confidenceOk (q : RawQuestion) : Bool :=
  match q.confidence with
  | some c => decide ((6/10 : ℚ) ≤ c)
  | none => false

/-- The structural filter of `src/api/app.js` lines 105-117:
question length at least 20, exactly 4 distinct options
(`new Set(q.options).size === 4`, modelled by `List.dedup`), and the
correct answer present among the options. -/
def questionValid (q : RawQuestion) : Bool :=
  if q.question.length < 20 then false
  else if q.options.dedup.length ≠ 4 then false
  else if q.correctAnswer ∉ q.options then false
  else true

/-- The pure core of `generateQuestions` (`src/api/app.js` lines 101-129),
starting from the parsed JSON array: confidence filter, structural
filter, projection, minimum-yield gate of 3. -/
def generateQuestions (questions : List RawQuestion) :
    Except String (List FinalQuestion) :=
  let acceptableQuestions := questions.filter confidenceOk
  let validQuestions := acceptableQuestions.filter questionValid
  let finalQuestions := validQuestions.map projectQuestion
  if finalQuestions.length < 3 then
    Except.error "Not enough reliable information in the transcript to generate a quiz"
  else
    Except.ok finalQuestions

lemma generateQuestions_ok_iff (qs : List RawQuestion) (out : List FinalQuestion) :
    generateQuestions qs = Except.ok out ↔
      out = ((qs.filter confidenceOk).filter questionValid).map projectQuestion ∧
        3 ≤ out.length := by
  unfold generateQuestions
  by_cases h : (((qs.filter confidenceOk).filter questionValid).map projectQuestion).length < 3
  · simp only [h, if_pos]
    constructor
    · intro hc
      exact absurd hc (by simp)
    · rintro ⟨rfl, hlen⟩
      omega
  · simp only [h, if_neg, not_false_iff]
    constructor
    · intro hc
      injection hc with hc
      subst hc
      exact ⟨rfl, by omega⟩
    · rintro ⟨rfl, _⟩
      rfl

lemma questionValid_spec (q : RawQuestion) (h : questionValid q = true) :
    q.options.dedup.length = 4 ∧ q.correctAnswer ∈ q.options ∧
      20 ≤ q.question.length := by
  unfold questionValid at h
  by_cases h1 : q.question.length < 20
  · simp [h1] at h
  · by_cases h2 : q.options.dedup.length ≠ 4
    · simp [h1, h2] at h
    · by_cases h3 : q.correctAnswer ∉ q.options
      · simp [h1, h2, h3] at h
      · push_neg at h2 h3
        exact ⟨h2, h3, by omega⟩

/-- Claim C1: every question surviving the filter pipeline of
`generateQuestions` has exactly 4 distinct option strings
(the code's `Set` test: the deduplicated option list has length 4),
contains its `correctAnswer` verbatim among its options, and has a
question text of at least 20 characters. -/
theorem C1_survivor_invariant (qs : List RawQuestion) (out : List FinalQuestion)
    (h : generateQuestions qs = Except.ok out) :
    ∀ fq ∈ out, fq.options.dedup.length = 4 ∧
      fq.correctAnswer ∈ fq.options ∧ 20 ≤ fq.question.length := by
  rcases (generateQuestions_ok_iff qs out).mp h with ⟨rfl, -⟩
  intro fq hfq
  rcases List.mem_map.mp hfq with ⟨q, hq, rfl⟩
  have hv : questionValid q = true := List.of_mem_filter hq
  exact questionValid_spec q hv

/-- Concrete valid raw questions used by the witnesses below. -/
def sampleRaw (i : Nat) : RawQuestion :=
  { question := "What is the capital city of France number " ++ toString i
    options := ["Paris", "Rome", "Berlin", "Madrid"]
    correctAnswer := "Paris"
    confidence := some (9/10)
    context := none }

/-- A raw question rejected by the confidence filter (confidence 1/2). -/
def sampleLowConf : RawQuestion :=
  { sampleRaw 9 with confidence := some (1/2) }

/-- A raw question whose confidence field is absent. -/
def sampleNoConf : RawQuestion :=
  { sampleRaw 8 with confidence := none }

lemma confidenceOk_sampleRaw (i : Nat) : confidenceOk (sampleRaw i) = true := by
  simp only [confidenceOk, sampleRaw, decide_eq_true_eq]
  norm_num

lemma confidenceOk_sampleLowConf : confidenceOk sampleLowConf = false := by
  simp only [confidenceOk, sampleLowConf, sampleRaw, decide_eq_false_iff_not]
  norm_num

lemma questionValid_sampleRaw (i : Nat) (h : (toString i).length = 1) :
    questionValid (sampleRaw i) = true := by
  have hlen : (sampleRaw i).question.length = 43 := by
    simp only [sampleRaw, String.length_append, h]
    decide
  unfold questionValid
  rw [hlen]
  norm_num [sampleRaw]
  decide

lemma generateQuestions_sample :
    generateQuestions [sampleRaw 1, sampleLowConf, sampleRaw 2, sampleRaw 3] =
      Except.ok [projectQuestion (sampleRaw 1), projectQuestion (sampleRaw 2),
        projectQuestion (sampleRaw 3)] := by
  have h1 := confidenceOk_sampleRaw 1
  have h2 := confidenceOk_sampleRaw 2
  have h3 := confidenceOk_sampleRaw 3
  have hlo := confidenceOk_sampleLowConf
  have hv1 := questionValid_sampleRaw 1 (by decide)
  have hv2 := questionValid_sampleRaw 2 (by decide)
  have hv3 := questionValid_sampleRaw 3 (by decide)
  unfold generateQuestions
  simp [List.filter, h1, h2, h3, hlo, hv1, hv2, hv3]

/-- Witness for C1: the invariant evaluated on a concrete surviving
question of a concrete run of the pipeline. -/
theorem C1_survivor_invariant_witness :
    (projectQuestion (sampleRaw 1)).options.dedup.length = 4 ∧
      (projectQuestion (sampleRaw 1)).correctAnswer ∈
        (projectQuestion (sampleRaw 1)).options ∧
      20 ≤ (projectQuestion (sampleRaw 1)).question.length :=
  C1_survivor_invariant
    [sampleRaw 1, sampleLowConf, sampleRaw 2, sampleRaw 3] _
    generateQuestions_sample (projectQuestion (sampleRaw 1))
    (List.mem_cons_self _ _)

/-- Claim C4: whenever fewer than 3 questions survive the confidence and
structural filters, `generateQuestions` fails with the
InsufficientQuestions error message and returns no partial list. -/
theorem C4_minimum_yield (qs : List RawQuestion)
    (h : ((qs.filter confidenceOk).filter questionValid).length < 3) :
    generateQuestions qs =
      Except.error "Not enough reliable information in the transcript to generate a quiz" := by
  unfold generateQuestions
  simp only [List.length_map]
  rw [if_pos h]

/-- Witness for C4: a run on a two-question list (both valid) fails with
the InsufficientQuestions error. -/
theorem C4_minimum_yield_witness :
    generateQuestions [sampleRaw 1, sampleRaw 2] =
      Except.error "Not enough reliable information in the transcript to generate a quiz" :=
  C4_minimum_yield [sampleRaw 1, sampleRaw 2]
    (by
      have : ((([sampleRaw 1, sampleRaw 2]).filter confidenceOk).filter
          questionValid).length ≤ ([sampleRaw 1, sampleRaw 2] : List RawQuestion).length :=
        List.Sublist.length_le
          (List.Sublist.trans (List.filter_sublist _) (List.filter_sublist _))
      simp only [List.length_cons, List.length_nil] at this
      omega)

/-- Claim C5: on a parsed response of 10 questions of which exactly 4
fail the confidence filter and every confident question is structurally
valid, `generateQuestions` succeeds with exactly 6 questions, each being
the three-field projection of one of the inputs (so no `confidence` or
`context` field survives: a `FinalQuestion` has only `question`,
`options`, `correctAnswer`). -/
theorem C5_ten_question_scenario (qs : List RawQuestion)
    (hlen : qs.length = 10)
    (hlow : (qs.filter (fun q => ! confidenceOk q)).length = 4)
    (hvalid : ∀ q ∈ qs, confidenceOk q = true → questionValid q = true) :
    ∃ out, generateQuestions qs = Except.ok out ∧ out.length = 6 ∧
      ∀ fq ∈ out, ∃ q ∈ qs, fq = projectQuestion q := by
  have hsplit := List.length_eq_length_filter_add (l := qs) confidenceOk
  have hc : (qs.filter confidenceOk).length = 6 := by omega
  have hkeep : (qs.filter confidenceOk).filter questionValid = qs.filter confidenceOk := by
    rw [List.filter_eq_self]
    intro q hq
    exact hvalid q (List.mem_of_mem_filter hq) (List.of_mem_filter hq)
  refine ⟨((qs.filter confidenceOk).filter questionValid).map projectQuestion, ?_, ?_, ?_⟩
  · rw [generateQuestions_ok_iff]
    refine ⟨rfl, ?_⟩
    rw [List.length_map, hkeep, hc]
    omega
  · rw [List.length_map, hkeep, hc]
  · intro fq hfq
    rcases List.mem_map.mp hfq with ⟨q, hq, rfl⟩
    exact ⟨q, List.mem_of_mem_filter (List.mem_of_mem_filter hq), rfl⟩

/-- Witness for C5: a concrete list of 10 questions, 4 below the
confidence bar and 6 valid ones, produces exactly 6 projections. -/
theorem C5_ten_question_scenario_witness :
    ∃ out, generateQuestions
        [sampleRaw 1, sampleRaw 2, sampleLowConf, sampleLowConf, sampleRaw 3,
          sampleNoConf, sampleRaw 4, sampleRaw 5, sampleLowConf, sampleRaw 6] =
        Except.ok out ∧ out.length = 6 ∧
      ∀ fq ∈ out, ∃ q ∈
        [sampleRaw 1, sampleRaw 2, sampleLowConf, sampleLowConf, sampleRaw 3,
          sampleNoConf, sampleRaw 4, sampleRaw 5, sampleLowConf, sampleRaw 6],
        fq = projectQuestion q :=
  C5_ten_question_scenario _ (by decide)
    (by
      have h1 := confidenceOk_sampleRaw 1
      have h2 := confidenceOk_sampleRaw 2
      have h3 := confidenceOk_sampleRaw 3
      have h4 := confidenceOk_sampleRaw 4
      have h5 := confidenceOk_sampleRaw 5
      have h6 := confidenceOk_sampleRaw 6
      have hlo := confidenceOk_sampleLowConf
      have hno : confidenceOk sampleNoConf = false := rfl
      simp [List.filter, h1, h2, h3, h4, h5, h6, hlo, hno])
    (by
      intro q hq hconf
      have hno : confidenceOk sampleNoConf = false := rfl
      have hlo := confidenceOk_sampleLowConf
      simp only [List.mem_cons, List.not_mem_nil, or_false] at hq
      rcases hq with rfl | rfl | rfl | rfl | rfl | rfl | rfl | rfl | rfl | rfl
      · exact questionValid_sampleRaw 1 (by decide)
      · exact questionValid_sampleRaw 2 (by decide)
      · rw [hlo] at hconf; exact absurd hconf (by decide)
      · rw [hlo] at hconf; exact absurd hconf (by decide)
      · exact questionValid_sampleRaw 3 (by decide)
      · rw [hno] at hconf; exact absurd hconf (by decide)
      · exact questionValid_sampleRaw 4 (by decide)
      · exact questionValid_sampleRaw 5 (by decide)
      · rw [hlo] at hconf; exact absurd hconf (by decide)
      · exact questionValid_sampleRaw 6 (by decide))

/-- Claim C9 (implicit): the output of `generateQuestions` is, in order,
the subsequence of the parsed response consisting of the questions that
pass both filters, each projected to its three public fields; in
particular it is an order-preserving sublist of the projected input, so
no reordering, duplication or synthesis occurs. -/
theorem C9_order_preserving (qs : List RawQuestion) (out : List FinalQuestion)
    (h : generateQuestions qs = Except.ok out) :
    out = (qs.filter (fun q => confidenceOk q && questionValid q)).map projectQuestion ∧
      out.Sublist (qs.map projectQuestion) := by
  rcases (generateQuestions_ok_iff qs out).mp h with ⟨rfl, -⟩
  constructor
  · rw [List.filter_filter]
    congr 1
    exact List.filter_congr fun a _ => Bool.and_comm (questionValid a) (confidenceOk a)
  · exact List.Sublist.map projectQuestion
      (List.Sublist.trans (List.filter_sublist _) (List.filter_sublist _))

/-- Witness for C9 on a concrete run of the pipeline. -/
theorem C9_order_preserving_witness :
    ([projectQuestion (sampleRaw 1), projectQuestion (sampleRaw 2),
        projectQuestion (sampleRaw 3)] : List FinalQuestion) =
      (([sampleRaw 1, sampleLowConf, sampleRaw 2, sampleRaw 3]).filter
          (fun q => confidenceOk q && questionValid q)).map projectQuestion ∧
      ([projectQuestion (sampleRaw 1), projectQuestion (sampleRaw 2),
        projectQuestion (sampleRaw 3)] : List FinalQuestion).Sublist
        (([sampleRaw 1, sampleLowConf, sampleRaw 2, sampleRaw 3]).map projectQuestion) :=
  C9_order_preserving [sampleRaw 1, sampleLowConf, sampleRaw 2, sampleRaw 3] _
    generateQuestions_sample

/-- Claim C10 (implicit): every question in the output of
`generateQuestions` is the projection of an input question that carries
a numeric confidence of at least 0.6; hence a question whose confidence
field is absent (modelled `none`, JS `undefined >= 0.6` being false) or
below 0.6 never appears, and the missing-field case is handled totally
rather than crashing. -/
theorem C10_confidence_required (qs : List RawQuestion) (out : List FinalQuestion)
    (h : generateQuestions qs = Except.ok out) :
    ∀ fq ∈ out, ∃ q ∈ qs, projectQuestion q = fq ∧
      ∃ c, q.confidence = some c ∧ (6/10 : ℚ) ≤ c := by
  rcases (generateQuestions_ok_iff qs out).mp h with ⟨rfl, -⟩
  intro fq hfq
  rcases List.mem_map.mp hfq with ⟨q, hq, rfl⟩
  have hconf : confidenceOk q = true := List.of_mem_filter (List.mem_of_mem_filter hq)
  refine ⟨q, List.mem_of_mem_filter (List.mem_of_mem_filter hq), rfl, ?_⟩
  unfold confidenceOk at hconf
  rcases hc : q.confidence with - | c
  · rw [hc] at hconf; exact absurd hconf (by decide)
  · rw [hc] at hconf
    exact ⟨c, rfl, of_decide_eq_true hconf⟩

/-- Witness for C10 on a concrete surviving question of a concrete run
of the pipeline. -/
theorem C10_confidence_required_witness :
    ∃ q ∈ [sampleRaw 1, sampleLowConf, sampleRaw 2, sampleRaw 3],
      projectQuestion q = projectQuestion (sampleRaw 1) ∧
        ∃ c, q.confidence = some c ∧ (6/10 : ℚ) ≤ c :=
  C10_confidence_required [sampleRaw 1, sampleLowConf, sampleRaw 2, sampleRaw 3] _
    generateQuestions_sample (projectQuestion (sampleRaw 1))
    (List.mem_cons_self _ _)

/-!
Part 2 embeds the caption-track selection of
`src/api/transcript.js` lines 46-52:

    const englishTrack = captionTracks.find(track =>
        track.languageCode === 'en' ||
        track.name?.simpleText?.toLowerCase().includes('english') ||
        track.baseUrl?.includes('lang=en'));
    const transcriptUrl = englishTrack?.baseUrl || captionTracks[0].baseUrl;

`find` scans the list once with the disjunction of the three criteria,
so the selected track is the first one matching any criterion, not the
best criterion across the list.
-/

/-- A caption track as parsed from the embedded page metadata; every
field may be absent.  `nameSimpleText` models `track.name?.simpleText`. -/
structure CaptionTrack where
  baseUrl : Option String
  languageCode : Option String
  nameSimpleText : Option String
deriving DecidableEq

/-- Substring test on character lists (JS `String.prototype.includes`). -/
def containsSeq (l pat : List Char) : Bool :=
  pat.isPrefixOf l ||
    match l with
    | [] => false
    | _ :: r => containsSeq r pat

/-- JS `a.includes(b)` on strings. -/
def strContains (s pat : String) : Bool := containsSeq s.data pat.data

/-- JS `s.toLowerCase()` (ASCII case fold suffices for the literals the
code compares against). -/
def lowerStr (s : String) : String := String.mk (s.data.map Char.toLower)

/-- The disjunctive predicate given to `captionTracks.find`:
exact language code, name containing english case-insensitively, or
URL containing the language marker.  Optional chaining on an absent
field yields `undefined`, which is falsy, hence the `none` branches. -/
def isEnglishLike (track : CaptionTrack) : Bool :=
  (track.languageCode == some "en") ||
  (match track.nameSimpleText with
   | some nm => strContains (lowerStr nm) "english"
   | none => false) ||
  (match track.baseUrl with
   | some u => strContains u "lang=en"
   | none => false)

/-- The `englishTrack` binding: `captionTracks.find(...)`. -/
def findEnglishTrack (tracks : List CaptionTrack) : Option CaptionTrack :=
  tracks.find? isEnglishLike

/-- JS `a || b` restricted to the string/undefined values that flow into
`transcriptUrl`: an empty string is falsy and also falls through. -/
def jsOrString (a b : Option String) : Option String :=
  match a with
  | some s => if s = "" then b else some s
  | none => b

/-- The `transcriptUrl` binding:
`englishTrack?.baseUrl || captionTracks[0].baseUrl`. -/
def resolveTranscriptUrl (tracks : List CaptionTrack) : Option String :=
  jsOrString ((findEnglishTrack tracks).bind CaptionTrack.baseUrl)
    (tracks.head?.bind CaptionTrack.baseUrl)

/-- A track that matches only the case-insensitive name criterion. -/
def trackNameOnly : CaptionTrack :=
  { baseUrl := some "https://captions.example/0"
    languageCode := some "fr"
    nameSimpleText := some "English (auto-generated)" }

/-- A track with an exact language-code match. -/
def trackExactEn : CaptionTrack :=
  { baseUrl := some "https://captions.example/1"
    languageCode := some "en"
    nameSimpleText := some "Anglais" }

/-- A track matching none of the three criteria. -/
def trackPlain : CaptionTrack :=
  { baseUrl := some "https://captions.example/2"
    languageCode := some "fr"
    nameSimpleText := some "Francais" }

/-- Counterexample to claim C2 as stated: in the two-track list below,
the second track matches the language code exactly while the first track
matches only the weaker name criterion, yet selection returns the first
track and its URL; the exact-code match does not win over a weaker match
that appears earlier in the list. -/
theorem C2_priority_counterexample :
    findEnglishTrack [trackNameOnly, trackExactEn] = some trackNameOnly ∧
    trackNameOnly.languageCode ≠ some "en" ∧
    trackExactEn.languageCode = some "en" ∧
    resolveTranscriptUrl [trackNameOnly, trackExactEn] =
      some "https://captions.example/0" ∧
    trackExactEn.baseUrl = some "https://captions.example/1" := by
  refine ⟨?_, by decide, rfl, ?_, rfl⟩
  · decide
  · decide

lemma find?_first_match {α : Type} (p : α → Bool) (pre : List α) (t : α)
    (post : List α) (hpre : ∀ u ∈ pre, p u = false) (ht : p t = true) :
    List.find? p (pre ++ t :: post) = some t := by
  induction pre with
  | nil => simp [List.find?_cons, ht]
  | cons a l ih =>
    have ha : p a = false := hpre a (List.mem_cons_self a l)
    rw [List.cons_append, List.find?_cons, ha]
    exact ih fun u hu => hpre u (List.mem_cons_of_mem a hu)

/-- Claim C2, amended: selection is the deterministic single left-to-right
scan `find` over the disjunction of the three criteria.  The selected
track is the first track (in list position order) satisfying any of
exact-code, name-substring or URL-substring; when no track satisfies
any criterion the URL falls back to the first track of the list.  An
exact language-code match therefore wins only against weaker matches
that appear later in the list, not regardless of position. -/
theorem C2_amended_first_disjunct_wins (tracks : List CaptionTrack)
    (h : tracks ≠ []) :
    (∀ (pre : List CaptionTrack) (t : CaptionTrack) (post : List CaptionTrack),
        tracks = pre ++ t :: post → (∀ u ∈ pre, isEnglishLike u = false) →
        isEnglishLike t = true → findEnglishTrack tracks = some t) ∧
    ((∀ t ∈ tracks, isEnglishLike t = false) →
        findEnglishTrack tracks = none ∧
        resolveTranscriptUrl tracks = (tracks.head h).baseUrl) := by
  constructor
  · intro pre t post hsplit hpre ht
    rw [hsplit]
    exact find?_first_match isEnglishLike pre t post hpre ht
  · intro hall
    have hnone : findEnglishTrack tracks = none := by
      unfold findEnglishTrack
      rw [List.find?_eq_none]
      intro x hx
      rw [hall x hx]
      decide
    refine ⟨hnone, ?_⟩
    unfold resolveTranscriptUrl
    rw [hnone, List.head?_eq_head h]
    rfl

/-- Witness for the amended C2: with a non-matching first track, the
exact-code second track is selected. -/
theorem C2_amended_first_disjunct_wins_witness :
    findEnglishTrack [trackPlain, trackExactEn] = some trackExactEn :=
  (C2_amended_first_disjunct_wins [trackPlain, trackExactEn] (by decide)).1
    [trackPlain] trackExactEn [] rfl (by decide) (by decide)

/-!
Part 3 embeds the transcript post-processing of
`src/api/transcript.js` lines 63-96: per-segment HTML-entity decoding
(`replace` chain), newline normalization, `trim`, the residual-entity
strip `replace(/&[^;]+;/g, " ")`, the drop of empty segments, the
`join(" ")`, the sentence-boundary heuristic
`replace(/([a-z])\s+([A-C])/g, "$1. $2")` and the word-count gate
`transcript.split(' ').length < 50`.

All string work is done on character lists with structural or
fuel-bounded recursion so that the functions evaluate inside the
kernel.  A `replace` of a literal pattern is the usual leftmost,
non-overlapping single pass.
-/

/-- The JS `\s` character class restricted to the ASCII whitespace
characters that can occur here (space, tab, LF, CR, VT, FF). -/
def isJsWhitespace (c : Char) : Bool :=
  c = ' ' || c = '\t' || c = '\n' || c = '\r' ||
    c = Char.ofNat 11 || c = Char.ofNat 12

/-- Leftmost non-overlapping replacement of a literal pattern, the
semantics of JS `String.prototype.replace` with a global literal
regex.  The fuel argument bounds the recursion; it is instantiated
with the input length, which suffices because every step consumes at
least one character. -/
def replaceAllFuel (pat repl : List Char) : Nat → List Char → List Char
  | 0, l => l
  | _ + 1, [] => []
  | fuel + 1, c :: rest =>
    if pat.isPrefixOf (c :: rest) then
      repl ++ replaceAllFuel pat repl fuel ((c :: rest).drop pat.length)
    else
      c :: replaceAllFuel pat repl fuel rest


/-- JS `String.prototype.trim` on character lists. -/
def trimChars (l : List Char) : List Char :=
  ((l.dropWhile isJsWhitespace).reverse.dropWhile isJsWhitespace).reverse

/-- Attempt to match the tail of the residual-entity regex `&[^;]+;`
right after an ampersand: one or more non-semicolon characters followed
by a semicolon.  Returns the remainder after the closing semicolon. -/
def matchEnt (l : List Char) : Option (List Char) :=
  match l.takeWhile (fun c => c != ';'), l.dropWhile (fun c => c != ';') with
  | [], _ => none
  | _ :: _, [] => none
  | _ :: _, _ :: t => some t

/-- One left-to-right pass of `replace(/&[^;]+;/g, " ")`, written as a
state machine: `none` is the normal state; `some buf` means an
ampersand has been read and `buf` holds (reversed) the non-semicolon
characters seen since.  On a semicolon with a non-empty buffer the
whole match becomes one space; an ampersand immediately followed by a
semicolon, or never followed by one, does not match and is emitted
unchanged, scanning resuming right after the ampersand exactly as the
regex engine does. -/
def stripGo : Option (List Char) → List Char → List Char
  | none, [] => []
  | none, c :: r => if c = '&' then stripGo (some []) r else c :: stripGo none r
  | some buf, [] => '&' :: buf.reverse
  | some buf, c :: r =>
    if c = ';' then
      if buf.isEmpty then '&' :: ';' :: stripGo none r
      else ' ' :: stripGo none r
    else stripGo (some (c :: buf)) r

/-- Decision procedure for "contains a substring matching `&[^;]+;`":
some ampersand is followed by at least one non-semicolon character and
then a semicolon. -/
def hasEnt : List Char → Bool
  | [] => false
  | c :: r => (if c = '&' then (matchEnt r).isSome else false) || hasEnt r

/-- Decision procedure for the looser reading of an entity-like
substring: an ampersand followed by one or more arbitrary characters
and then a semicolon. -/
def hasLooseEntity : List Char → Bool
  | [] => false
  | c :: r => (if c = '&' then (r.drop 1).elem ';' else false) || hasLooseEntity r

/-- The apostrophe character, the replacement text of the `&#39;`
decodings. -/
def apos : String := String.mk [Char.ofNat 39]

/-- The per-segment cleaning chain of `src/api/transcript.js` lines
66-80 on character lists: the ordered entity replacements, newline
normalization, `trim`, then the residual-entity strip.  One fuel value
bounds every replacement pass: no replacement here lengthens the text,
so the length of the original segment suffices for all of them. -/
def cleanSegmentChars (fuel : Nat) (l : List Char) : List Char :=
  let t1 := replaceAllFuel "&amp;#39;".data apos.data fuel l
  let t2 := replaceAllFuel "&amp;quot;".data "\"".data fuel t1
  let t3 := replaceAllFuel "&amp;".data "&".data fuel t2
  let t4 := replaceAllFuel "&#39;".data apos.data fuel t3
  let t5 := replaceAllFuel "&quot;".data "\"".data fuel t4
  let t6 := replaceAllFuel "&lt;".data "<".data fuel t5
  let t7 := replaceAllFuel "&gt;".data ">".data fuel t6
  let t8 := replaceAllFuel "\n".data " ".data fuel t7
  stripGo none (trimChars t8)

/-- The per-segment cleaning chain on strings. -/
def cleanSegment (s : String) : String :=
  String.mk (cleanSegmentChars s.data.length s.data)

/-- ASCII lowercase range, the `[a-z]` class. -/
def isAsciiLower (c : Char) : Bool := 'a' ≤ c && c ≤ 'z'

/-- ASCII uppercase range, the `[A-Z]` class. -/
def isAsciiUpper (c : Char) : Bool := 'A' ≤ c && c ≤ 'Z'

/-- The sentence-boundary heuristic
`replace(/([a-z])\s+([A-C])/g, "$1. $2")` (with `A-C` written here for
the uppercase class `[A-Z]`): a lowercase letter, one or more
whitespace characters, an uppercase letter, rewritten to
lowercase-period-space-uppercase, scanning resuming after the match. -/
def insertPeriodsFuel : Nat → List Char → List Char
  | 0, l => l
  | _ + 1, [] => []
  | fuel + 1, c :: rest =>
    if isAsciiLower c then
      match rest.dropWhile isJsWhitespace with
      | d :: rest2 =>
        if (rest.takeWhile isJsWhitespace) ≠ [] && isAsciiUpper d then
          c :: '.' :: ' ' :: d :: insertPeriodsFuel fuel rest2
        else c :: insertPeriodsFuel fuel rest
      | [] => c :: insertPeriodsFuel fuel rest
    else c :: insertPeriodsFuel fuel rest

/-- String wrapper for the sentence-boundary heuristic. -/
def insertPeriods (s : String) : String :=
  String.mk (insertPeriodsFuel s.data.length s.data)

/-- Length of JS `transcript.split(' ')`: one more than the number of
space characters, empty fields included. -/
def splitSpaceLen : List Char → Nat
  | [] => 1
  | c :: r => (if c = ' ' then 1 else 0) + splitSpaceLen r

/-- Number of whitespace-delimited (non-empty) tokens, the notion the
claim uses for "word count". -/
def countTokensGo (inWord : Bool) : List Char → Nat
  | [] => 0
  | c :: r =>
    if isJsWhitespace c then countTokensGo false r
    else (if inWord then 0 else 1) + countTokensGo true r

/-- Whitespace-delimited token count of a string. -/
def countWsTokens (s : String) : Nat := countTokensGo false s.data

/-- Result of the transcript resolver: a transcript string or the typed
error object `\x7b error: ... \x7d`. -/
inductive TranscriptResult where
  | text (transcript : String)
  | err (error : String)
deriving DecidableEq

/-- The joined, cleaned transcript right before the word-count gate:
segments cleaned, empty ones dropped, joined with single spaces, then
the sentence-boundary heuristic applied
(`src/api/transcript.js` lines 63-87). -/
def joinedTranscript (segments : List String) : String :=
  insertPeriods (String.intercalate " "
    ((segments.map cleanSegment).filter (fun t => t.length > 0)))

/-- The tail of `getYouTubeTranscript` from the matched raw segments
onwards, including the gate
`if (transcript.split(' ').length < 50)` of lines 90-93. -/
def processSegments (segments : List String) : TranscriptResult :=
  let transcript := joinedTranscript segments
  if splitSpaceLen transcript.data < 50 then
    TranscriptResult.err "Not enough reliable information in the transcript"
  else
    TranscriptResult.text transcript

/-- What the route handler does with a resolver result. -/
inductive RouteAction where
  | respondError (message : String)
  | generateFrom (transcript : String)
deriving DecidableEq

/-- The route handler's dispatch (`src/api/app.js` lines 150-156): a
result that is an object with a truthy `error` field (every error this
resolver produces carries a fixed non-empty message) is answered as a
400 error; otherwise the transcript string goes to the generator. -/
def routeOnTranscript (r : TranscriptResult) : RouteAction :=
  match r with
  | TranscriptResult.err e => RouteAction.respondError e
  | TranscriptResult.text t => RouteAction.generateFrom t

lemma matchEnt_none_of_no_semi (t : List Char) (h : ';' ∉ t) :
    matchEnt t = none := by
  have hdrop : t.dropWhile (fun c => c != ';') = [] := by
    rw [List.dropWhile_eq_nil_iff]
    intro x hx
    simp only [bne_iff_ne, ne_eq]
    exact fun he => h (he ▸ hx)
  unfold matchEnt
  rw [hdrop]
  cases t.takeWhile (fun c => c != ';') with
  | nil => rfl
  | cons x xs => rfl

lemma hasEnt_no_semi (t : List Char) (h : ';' ∉ t) : hasEnt t = false := by
  induction t with
  | nil => rfl
  | cons a r ih =>
    have hr : ';' ∉ r := fun hm => h (List.mem_cons_of_mem a hm)
    show ((if a = '&' then (matchEnt r).isSome else false) || hasEnt r) = false
    rw [matchEnt_none_of_no_semi r hr, ih hr]
    cases hc : decide (a = '&') <;> simp [of_decide_eq_true, hc]

lemma hasEnt_stripGo (l : List Char) :
    ∀ m : Option (List Char), (∀ buf, m = some buf → ';' ∉ buf) →
      hasEnt (stripGo m l) = false := by
  induction l with
  | nil =>
    intro m hm
    match m with
    | none => rfl
    | some buf =>
      have hb : ';' ∉ buf := hm buf rfl
      have hb' : ';' ∉ buf.reverse := fun hc => hb (List.mem_reverse.mp hc)
      show ((if ('&' : Char) = '&' then (matchEnt buf.reverse).isSome else false) ||
        hasEnt buf.reverse) = false
      rw [if_pos rfl, matchEnt_none_of_no_semi _ hb', hasEnt_no_semi _ hb']
      rfl
  | cons c r ih =>
    intro m hm
    match m with
    | none =>
      show hasEnt (if c = '&' then stripGo (some []) r else c :: stripGo none r) = false
      by_cases hc : c = '&'
      · rw [if_pos hc]
        exact ih (some []) fun buf hbuf => by
          injection hbuf with hbuf
          subst hbuf
          exact List.not_mem_nil ';'
      · rw [if_neg hc]
        show ((if c = '&' then (matchEnt (stripGo none r)).isSome else false) ||
          hasEnt (stripGo none r)) = false
        rw [if_neg hc, ih none fun _ hbuf => Option.noConfusion hbuf]
        rfl
    | some buf =>
      have hb : ';' ∉ buf := hm buf rfl
      show hasEnt (if c = ';' then
          (if buf.isEmpty then '&' :: ';' :: stripGo none r else ' ' :: stripGo none r)
        else stripGo (some (c :: buf)) r) = false
      have hrec : hasEnt (stripGo none r) = false :=
        ih none fun _ hbuf => Option.noConfusion hbuf
      by_cases hc : c = ';'
      · rw [if_pos hc]
        by_cases he : buf.isEmpty
        · rw [if_pos he]
          have hm1 : matchEnt (';' :: stripGo none r) = none := rfl
          show ((if ('&' : Char) = '&' then (matchEnt (';' :: stripGo none r)).isSome
              else false) || hasEnt (';' :: stripGo none r)) = false
          rw [if_pos rfl, hm1]
          show (false || hasEnt (';' :: stripGo none r)) = false
          rw [Bool.false_or]
          show ((if (';' : Char) = '&' then (matchEnt (stripGo none r)).isSome
              else false) || hasEnt (stripGo none r)) = false
          rw [if_neg (by decide : ¬ ((';' : Char) = '&')), hrec]
          rfl
        · rw [if_neg he]
          show ((if (' ' : Char) = '&' then (matchEnt (stripGo none r)).isSome
              else false) || hasEnt (stripGo none r)) = false
          rw [if_neg (by decide : ¬ ((' ' : Char) = '&')), hrec]
          rfl
      · rw [if_neg hc]
        exact ih (some (c :: buf)) fun buf2 hbuf => by
          injection hbuf with hbuf
          subst hbuf
          intro hmem
          rcases List.mem_cons.mp hmem with h1 | h2
          · exact hc h1.symm
          · exact hb h2

/-- Claim C6, amended: the output of the segment-cleaning chain contains
no residual substring of the form ampersand, one or more non-semicolon
characters, semicolon (the pattern `&[^;]+;` the code strips); the chain
is however not idempotent in general, because the residual strip runs
after `trim` and may leave fresh boundary spaces that a second
application would trim away. -/
theorem C6_no_residual_entity (s : String) :
    hasEnt (cleanSegment s).data = false :=
  hasEnt_stripGo _ none fun _ hbuf => Option.noConfusion hbuf

set_option maxHeartbeats 2000000 in
/-- Counterexample to claim C6 as stated: on the segment `a &x;` the
cleaner yields `a` followed by two spaces, and a second application
yields `a`, so cleaning is not idempotent; moreover on `&;x;` the
output still contains an ampersand followed by (arbitrary) characters
and a semicolon, so only the non-semicolon form of "entity-like
substring" is absent from outputs. -/
theorem C6_idempotence_counterexample :
    cleanSegment (cleanSegment "a &x;") ≠ cleanSegment "a &x;" ∧
    hasLooseEntity (cleanSegment "&;x;").data = true := by
  exact ⟨by decide, by decide⟩

/-- The concrete segment showing the gap between the split-count and the
token count: one word followed by 25 unrecognized entities, whose
stripping produces 50 spaces. -/
def lowTokenSegment : String := "w" ++ String.join (List.replicate 25 " &a;")

set_option maxHeartbeats 4000000 in
/-- Counterexample to claim C3 as stated: the cleaned, joined transcript
of `lowTokenSegment` has a single whitespace-delimited token (well below
50), yet `processSegments` returns the transcript rather than the
InsufficientContent error, because the gate counts single-space split
fields and the stripped entities inflated that count to 51. -/
theorem C3_token_gate_counterexample :
    countWsTokens (joinedTranscript [lowTokenSegment]) = 1 ∧
    processSegments [lowTokenSegment] =
      TranscriptResult.text (joinedTranscript [lowTokenSegment]) := by
  exact ⟨by decide, by decide⟩

/-- Claim C3, amended: the gate counts the fields of
`transcript.split(' ')` — one more than the number of space characters,
empty fields included — rather than whitespace-delimited tokens.
Whenever that split count of the joined, cleaned transcript is below
50, the resolver returns the InsufficientContent error object, and the
route handler responds with the error instead of invoking the
generator. -/
theorem C3_split_gate (segments : List String)
    (h : splitSpaceLen (joinedTranscript segments).data < 50) :
    processSegments segments =
      TranscriptResult.err "Not enough reliable information in the transcript" ∧
    routeOnTranscript (processSegments segments) =
      RouteAction.respondError "Not enough reliable information in the transcript" := by
  have hp : processSegments segments =
      TranscriptResult.err "Not enough reliable information in the transcript" := by
    unfold processSegments
    rw [if_pos h]
  exact ⟨hp, by rw [hp]; rfl⟩

/-- Witness for the amended C3: a one-word transcript is rejected and
routed as an error. -/
theorem C3_split_gate_witness :
    processSegments ["hi"] =
      TranscriptResult.err "Not enough reliable information in the transcript" ∧
    routeOnTranscript (processSegments ["hi"]) =
      RouteAction.respondError "Not enough reliable information in the transcript" :=
  C3_split_gate ["hi"] (by decide)

/-!
Part 4 embeds `validateQuestionCompleteness` of
`src/backend/server.js` lines 121-149: the dangling-reference pattern
set (with the mathematical-notation escape hatch), the 30-character
minimum, and the incomplete-ending regex
`/(?:in|of|for|with|by|the|a|to|as)\.?$/i` applied to the trimmed
question text.  That regex carries no word boundary: it matches any
text whose trimmed form merely ends with one of the listed strings,
optionally followed by a period.
-/

/-- The dangling-reference phrase set, spelled out: the four case
insensitive regexes of `suspiciousPatterns` denote exactly these
literal phrases (each regex is an alternation of literals). -/
def suspiciousPhrases : List String :=
  ["the given expression", "the given equation", "the given formula",
   "the given problem",
   "the above expression", "the above equation", "the above formula",
   "the above problem",
   "the following expression", "the following equation",
   "the following formula", "the following problem",
   "the mentioned expression", "the mentioned equation",
   "the mentioned formula", "the mentioned problem",
   "this expression", "this equation", "this formula", "this problem",
   "solve for", "solve the following",
   "find the value"]

/-- `suspiciousPatterns.some(pattern => pattern.test(question.question))`
with the `/i` flag modelled by lowercasing both sides. -/
def hasSuspiciousPhrase (q : String) : Bool :=
  suspiciousPhrases.any fun p => strContains (lowerStr q) p

/-- The character class of `/[=<>+\-*\/^²³⁴]+/`. -/
def mathNotationChars : List Char :=
  ['=', '<', '>', '+', '-', '*', '/', '^', '²', '³', '⁴']

/-- `hasMathContent`: the question text contains at least one
mathematical/symbolic character. -/
def hasMathContent (q : String) : Bool :=
  q.data.any fun c => mathNotationChars.contains c

/-- The closed word list of the incomplete-ending regex. -/
def incompleteEndWords : List String :=
  ["in", "of", "for", "with", "by", "the", "a", "to", "as"]

/-- Suffix test on character lists. -/
def endsWithSeq (l suffix : List Char) : Bool :=
  suffix.reverse.isPrefixOf l.reverse

/-- The test `/(?:in|of|for|with|by|the|a|to|as)\.?$/i` applied to
`question.question.trim()`: the trimmed, case-folded text ends with one
of the listed strings, optionally followed by a period.  No word
boundary is required by the regex. -/
def endsIncomplete (q : String) : Bool :=
  let t := lowerStr (String.mk (trimChars q.data))
  incompleteEndWords.any fun w =>
    endsWithSeq t.data w.data || endsWithSeq t.data (w.data ++ ['.'])

/-- `validateQuestionCompleteness` of `src/backend/server.js` lines
121-149: reject on a dangling-reference phrase without mathematical
notation, then on question length below 30, then on an incomplete
ending; otherwise accept. -/
def validateQuestionCompleteness (question : RawQuestion) : Bool :=
  if hasSuspiciousPhrase question.question && ! hasMathContent question.question then
    false
  else if question.question.length < 30 then false
  else if endsIncomplete question.question then false
  else true

/-- Claim C7, amended: a question matching a dangling-reference phrase
with no mathematical notation is rejected; a question whose trimmed
text ends (case-insensitively) with one of the closed list of strings,
optionally followed by a period, is rejected — with no word boundary,
so a word merely ending in one of those strings (for example Berlin,
which ends in the string in) is also rejected; and a question that
fails neither of those tests (any suspicious phrase being excused by
mathematical notation) and is at least 30 characters long is
accepted. -/
theorem C7_amended_completeness (q : RawQuestion) :
    (hasSuspiciousPhrase q.question = true ∧ hasMathContent q.question = false →
      validateQuestionCompleteness q = false) ∧
    (endsIncomplete q.question = true → validateQuestionCompleteness q = false) ∧
    ((hasSuspiciousPhrase q.question = true → hasMathContent q.question = true) →
      30 ≤ q.question.length → endsIncomplete q.question = false →
      validateQuestionCompleteness q = true) := by
  refine ⟨?_, ?_, ?_⟩
  · rintro ⟨hs, hm⟩
    unfold validateQuestionCompleteness
    rw [hs, hm]
    rfl
  · intro he
    unfold validateQuestionCompleteness
    by_cases hsm : hasSuspiciousPhrase q.question && ! hasMathContent q.question
    · rw [if_pos hsm]
    · rw [if_neg hsm]
      by_cases hlen : q.question.length < 30
      · rw [if_pos hlen]
      · rw [if_neg hlen, if_pos he]
  · intro hsm hlen he
    unfold validateQuestionCompleteness
    have h1 : (hasSuspiciousPhrase q.question && ! hasMathContent q.question) = false := by
      cases hs : hasSuspiciousPhrase q.question
      · rfl
      · rw [hsm hs]
        rfl
    rw [h1, if_neg (by omega : ¬ q.question.length < 30), he]
    rfl

/-- A question used by the witness: a dangling reference with no
mathematical notation. -/
def danglingQuestion : RawQuestion :=
  { question := "Solve for x in the problem mentioned earlier today"
    options := ["one", "two", "three", "four"]
    correctAnswer := "one"
    confidence := none
    context := none }

/-- Witness for the amended C7: the dangling-reference question is
rejected. -/
theorem C7_amended_completeness_witness :
    validateQuestionCompleteness danglingQuestion = false :=
  (C7_amended_completeness danglingQuestion).1 ⟨by decide, by decide⟩

/-- A complete question whose final word Berlin is outside the closed
word list but ends with the string in. -/
def berlinQuestion : RawQuestion :=
  { question := "Name the largest city in Germany, Berlin"
    options := ["one", "two", "three", "four"]
    correctAnswer := "one"
    confidence := none
    context := none }

/-- Counterexample to claim C7 as stated: this question ends in the
word Berlin — a word outside the closed list in/of/for/with/by/the/a/to/as —
yet the ending check rejects it, because the regex has no word boundary
and Berlin ends with the string in.  Its other checks all pass: no
suspicious phrase, length at least 30. -/
theorem C7_ending_counterexample :
    validateQuestionCompleteness berlinQuestion = false ∧
    hasSuspiciousPhrase berlinQuestion.question = false ∧
    30 ≤ berlinQuestion.question.length ∧
    endsWithSeq (lowerStr (String.mk (trimChars berlinQuestion.question.data))).data
      " berlin".data = true ∧
    "berlin" ∉ incompleteEndWords ∧ "Berlin" ∉ incompleteEndWords := by
  refine ⟨by decide, by decide, by decide, by decide, by decide, by decide⟩

/-!
Part 5 embeds the transcript pre-clean of `src/api/app.js` lines 54-58:

    transcript
      .replace(/(\w+)\s\1\s\1/g, "$1 $1")
      .replace(/(\w+)\s\1/g, "$1")
      .replace(/\s\x7b2,\x7d/g, " ")
      .trim()

The backreference patterns are modelled faithfully: at each scan
position the engine tries the greedy word-character capture from the
longest candidate downwards, requires a single whitespace character and
then the captured text again (with no word boundary after it), replaces
the leftmost match, and resumes scanning after the match.
-/

/-- The JS `\w` class: ASCII letters, digits and underscore. -/
def isWordChar (c : Char) : Bool :=
  ('a' ≤ c && c ≤ 'z') || ('A' ≤ c && c ≤ 'Z') ||
    ('0' ≤ c && c ≤ '9') || c = '_'

/-- Backtracking attempt to match `(\w+)\s\1` at the head of `l`:
candidate capture lengths run from `k` (instantiated with the full
word-character run, the greedy first try) down to 1.  On success the
capture and the remainder after the match are returned. -/
def tryCapture2 (l : List Char) : Nat → Option (List Char × List Char)
  | 0 => none
  | k + 1 =>
    match l.drop (k + 1) with
    | c :: rest2 =>
      if isJsWhitespace c && (l.take (k + 1)).isPrefixOf rest2 then
        some (l.take (k + 1), rest2.drop (k + 1))
      else tryCapture2 l k
    | [] => tryCapture2 l k

/-- Match of `(\w+)\s\1` at the head position. -/
def tryMatch2At (l : List Char) : Option (List Char × List Char) :=
  tryCapture2 l (l.takeWhile isWordChar).length

/-- Backtracking attempt to match `(\w+)\s\1\s\1` at the head of `l`. -/
def tryCapture3 (l : List Char) : Nat → Option (List Char × List Char)
  | 0 => none
  | k + 1 =>
    match l.drop (k + 1) with
    | c :: rest2 =>
      if isJsWhitespace c && (l.take (k + 1)).isPrefixOf rest2 then
        match rest2.drop (k + 1) with
        | d :: rest3 =>
          if isJsWhitespace d && (l.take (k + 1)).isPrefixOf rest3 then
            some (l.take (k + 1), rest3.drop (k + 1))
          else tryCapture3 l k
        | [] => tryCapture3 l k
      else tryCapture3 l k
    | [] => tryCapture3 l k

/-- Match of `(\w+)\s\1\s\1` at the head position. -/
def tryMatch3At (l : List Char) : Option (List Char × List Char) :=
  tryCapture3 l (l.takeWhile isWordChar).length

/-- One global pass of `replace(/(\w+)\s\1/g, "$1")`: leftmost match,
replacement by the capture, scanning resumes after the match.  Fuel is
instantiated with the length of the input. -/
def rep2Fuel : Nat → List Char → List Char
  | 0, l => l
  | _ + 1, [] => []
  | fuel + 1, c :: rest =>
    match tryMatch2At (c :: rest) with
    | some (cap, after) => cap ++ rep2Fuel fuel after
    | none => c :: rep2Fuel fuel rest

/-- The double-repetition pass. -/
def collapseDoubles (l : List Char) : List Char := rep2Fuel l.length l

/-- One global pass of `replace(/(\w+)\s\1\s\1/g, "$1 $1")`. -/
def rep3Fuel : Nat → List Char → List Char
  | 0, l => l
  | _ + 1, [] => []
  | fuel + 1, c :: rest =>
    match tryMatch3At (c :: rest) with
    | some (cap, after) => cap ++ ' ' :: (cap ++ rep3Fuel fuel after)
    | none => c :: rep3Fuel fuel rest

/-- The triple-repetition pass. -/
def collapseTriples (l : List Char) : List Char := rep3Fuel l.length l

/-- State of the whitespace-run collapse: scanning normally, holding a
single whitespace character (emitted verbatim if the run has length 1),
or inside a run of length at least 2 (emitted as one space). -/
inductive WsState where
  | norm
  | one (held : Char)
  | run

/-- One pass of `replace(/\s\x7b2,\x7d/g, " ")`: a run of two or more
whitespace characters becomes a single space; an isolated whitespace
character is left unchanged. -/
def collWsGo : WsState → List Char → List Char
  | WsState.norm, [] => []
  | WsState.norm, c :: r =>
    if isJsWhitespace c then collWsGo (WsState.one c) r
    else c :: collWsGo WsState.norm r
  | WsState.one p, [] => [p]
  | WsState.one p, c :: r =>
    if isJsWhitespace c then collWsGo WsState.run r
    else p :: c :: collWsGo WsState.norm r
  | WsState.run, [] => [' ']
  | WsState.run, c :: r =>
    if isJsWhitespace c then collWsGo WsState.run r
    else ' ' :: c :: collWsGo WsState.norm r

/-- The whitespace-collapse pass. -/
def collapseWs (l : List Char) : List Char := collWsGo WsState.norm l

/-- The whole pre-clean `cleanedTranscript` chain of `src/api/app.js`
lines 54-58: triple-repetition pass, double-repetition pass,
whitespace collapse, trim. -/
def cleanTranscript (s : String) : String :=
  String.mk (trimChars (collapseWs (collapseDoubles (collapseTriples s.data))))

lemma ws_not_wordChar (c : Char) (h : isJsWhitespace c = true) :
    isWordChar c = false := by
  simp only [isJsWhitespace, Bool.or_eq_true, decide_eq_true_eq] at h
  rcases h with ((((h | h) | h) | h) | h) | h <;> subst h <;> decide

lemma wordChar_not_ws (c : Char) (h : isWordChar c = true) :
    isJsWhitespace c = false := by
  cases hws : isJsWhitespace c
  · rfl
  · rw [ws_not_wordChar c hws] at h
    exact Bool.noConfusion h

lemma rep2Fuel_nil (fuel : Nat) : rep2Fuel fuel [] = [] := by
  cases fuel <;> rfl

lemma rep3Fuel_nil (fuel : Nat) : rep3Fuel fuel [] = [] := by
  cases fuel <;> rfl

lemma tryCapture2_none_of_no_ws (l : List Char)
    (h : ∀ c ∈ l, isJsWhitespace c = false) :
    ∀ k, tryCapture2 l k = none := by
  intro k
  induction k with
  | zero => rfl
  | succ k ih =>
    simp only [tryCapture2]
    cases hd : l.drop (k + 1) with
    | nil => exact ih
    | cons c rest2 =>
      have hc : c ∈ l := List.mem_of_mem_drop (hd ▸ List.mem_cons_self c rest2)
      dsimp only
      rw [h c hc]
      simpa using ih

lemma tryCapture3_none_of_few_ws (l : List Char)
    (h : l.countP isJsWhitespace ≤ 1) :
    ∀ k, tryCapture3 l k = none := by
  intro k
  induction k with
  | zero => rfl
  | succ k ih =>
    simp only [tryCapture3]
    cases hd : l.drop (k + 1) with
    | nil => exact ih
    | cons c rest2 =>
      dsimp only
      by_cases hcond : (isJsWhitespace c && (l.take (k + 1)).isPrefixOf rest2) = true
      · rw [hcond, if_pos rfl]
        cases hd2 : rest2.drop (k + 1) with
        | nil => exact ih
        | cons d rest3 =>
          dsimp only
          by_cases hcond2 : (isJsWhitespace d && (l.take (k + 1)).isPrefixOf rest3) = true
          · exfalso
            have hc1 := hcond
            have hc2 := hcond2
            rw [Bool.and_eq_true] at hc1 hc2
            have hl : l.countP isJsWhitespace =
                (l.take (k + 1)).countP isJsWhitespace +
                  (c :: rest2).countP isJsWhitespace := by
              conv_lhs => rw [← List.take_append_drop (k + 1) l]
              rw [List.countP_append, hd]
            have hr : rest2.countP isJsWhitespace =
                (rest2.take (k + 1)).countP isJsWhitespace +
                  (d :: rest3).countP isJsWhitespace := by
              conv_lhs => rw [← List.take_append_drop (k + 1) rest2]
              rw [List.countP_append, hd2]
            rw [List.countP_cons, if_pos hc1.1] at hl
            rw [List.countP_cons, if_pos hc2.1] at hr
            omega
          · rw [Bool.not_eq_true] at hcond2
            rw [hcond2]
            simpa using ih
      · rw [Bool.not_eq_true] at hcond
        rw [hcond]
        simpa using ih

lemma takeWhile_word_append (w : List Char)
    (hw : ∀ c ∈ w, isWordChar c = true) (c : Char)
    (hc : isWordChar c = false) (t : List Char) :
    ((w ++ c :: t).takeWhile isWordChar) = w := by
  induction w with
  | nil => simp [List.takeWhile_cons, hc]
  | cons a r ih =>
    have ha := hw a (List.mem_cons_self a r)
    simp only [List.cons_append, List.takeWhile_cons, ha, if_true]
    rw [ih fun x hx => hw x (List.mem_cons_of_mem a hx)]

lemma tryMatch2At_repeat (w rest : List Char) (hw : w ≠ [])
    (hword : ∀ c ∈ w, isWordChar c = true) :
    tryMatch2At (w ++ ' ' :: (w ++ rest)) = some (w, rest) := by
  unfold tryMatch2At
  rw [takeWhile_word_append w hword ' ' (by decide) (w ++ rest)]
  obtain ⟨n, hn⟩ : ∃ n, w.length = n + 1 := by
    cases w with
    | nil => exact absurd rfl hw
    | cons a r => exact ⟨r.length, rfl⟩
  rw [hn]
  simp only [tryCapture2]
  rw [← hn, List.drop_left, List.take_left]
  have hpre : w.isPrefixOf (w ++ rest) = true := by
    rw [ List.isPrefixOf_iff_prefix]
    exact List.prefix_append w rest
  simp only [hpre, Bool.and_true, if_pos (by decide : isJsWhitespace ' ' = true)]
  rw [List.drop_left]

lemma tryMatch3At_repeat (w rest : List Char) (hw : w ≠ [])
    (hword : ∀ c ∈ w, isWordChar c = true) :
    tryMatch3At (w ++ ' ' :: (w ++ ' ' :: (w ++ rest))) = some (w, rest) := by
  unfold tryMatch3At
  rw [takeWhile_word_append w hword ' ' (by decide) (w ++ ' ' :: (w ++ rest))]
  obtain ⟨n, hn⟩ : ∃ n, w.length = n + 1 := by
    cases w with
    | nil => exact absurd rfl hw
    | cons a r => exact ⟨r.length, rfl⟩
  rw [hn]
  simp only [tryCapture3]
  rw [← hn, List.drop_left, List.take_left]
  dsimp only
  have hpre1 : w.isPrefixOf (w ++ ' ' :: (w ++ rest)) = true := by
    rw [ List.isPrefixOf_iff_prefix]
    exact List.prefix_append w _
  have hpre2 : w.isPrefixOf (w ++ rest) = true := by
    rw [ List.isPrefixOf_iff_prefix]
    exact List.prefix_append w rest
  rw [hpre1]
  simp only [Bool.and_true, if_pos (by decide : isJsWhitespace ' ' = true)]
  rw [List.drop_left]
  dsimp only
  rw [hpre2]
  simp only [Bool.and_true, if_pos (by decide : isJsWhitespace ' ' = true)]
  rw [List.drop_left]

lemma tryCapture2_sep_none (a : List Char) (sc : Char) (v : List Char)
    (ha : ∀ c ∈ a, isWordChar c = true)
    (hnpre : a = [] ∨ a.isPrefixOf v = false) :
    ∀ k, k ≤ a.length → tryCapture2 (a ++ sc :: v) k = none := by
  intro k
  induction k with
  | zero => intro _; rfl
  | succ k ih =>
    intro hk
    simp only [tryCapture2]
    by_cases heq : k + 1 = a.length
    · have hdrop : (a ++ sc :: v).drop (k + 1) = sc :: v := by
        rw [heq, List.drop_left]
      have htake : (a ++ sc :: v).take (k + 1) = a := by
        rw [heq, List.take_left]
      rw [hdrop]
      dsimp only
      rw [htake]
      have hne : a ≠ [] := by
        intro h0
        rw [h0] at heq
        simp at heq
      rw [hnpre.resolve_left hne]
      simp only [Bool.and_false, Bool.false_eq_true, if_false]
      exact ih (by omega)
    · have hlt : k + 1 ≤ a.length := by omega
      have hdrop : (a ++ sc :: v).drop (k + 1) = a.drop (k + 1) ++ sc :: v :=
        List.drop_append_of_le_length hlt
      rw [hdrop]
      cases hda : a.drop (k + 1) with
      | nil =>
        exfalso
        have := List.drop_eq_nil_iff.mp hda
        omega
      | cons d tail =>
        simp only [List.cons_append]
        have hd_mem : d ∈ a :=
          List.mem_of_mem_drop (hda ▸ List.mem_cons_self d tail)
        rw [wordChar_not_ws d (ha d hd_mem)]
        simp only [Bool.false_and, Bool.false_eq_true, if_false]
        exact ih (by omega)

lemma tryMatch2At_sep_none (a : List Char) (sc : Char) (v : List Char)
    (ha : ∀ c ∈ a, isWordChar c = true) (hsc : isWordChar sc = false)
    (hnpre : a = [] ∨ a.isPrefixOf v = false) :
    tryMatch2At (a ++ sc :: v) = none := by
  unfold tryMatch2At
  rw [takeWhile_word_append a ha sc hsc v]
  exact tryCapture2_sep_none a sc v ha hnpre a.length le_rfl

lemma tryCapture3_sep_none (a : List Char) (sc : Char) (v : List Char)
    (ha : ∀ c ∈ a, isWordChar c = true)
    (hnpre : a = [] ∨ a.isPrefixOf v = false) :
    ∀ k, k ≤ a.length → tryCapture3 (a ++ sc :: v) k = none := by
  intro k
  induction k with
  | zero => intro _; rfl
  | succ k ih =>
    intro hk
    simp only [tryCapture3]
    by_cases heq : k + 1 = a.length
    · have hdrop : (a ++ sc :: v).drop (k + 1) = sc :: v := by
        rw [heq, List.drop_left]
      have htake : (a ++ sc :: v).take (k + 1) = a := by
        rw [heq, List.take_left]
      rw [hdrop]
      dsimp only
      rw [htake]
      have hne : a ≠ [] := by
        intro h0
        rw [h0] at heq
        simp at heq
      rw [hnpre.resolve_left hne]
      simp only [Bool.and_false, Bool.false_eq_true, if_false]
      exact ih (by omega)
    · have hlt : k + 1 ≤ a.length := by omega
      have hdrop : (a ++ sc :: v).drop (k + 1) = a.drop (k + 1) ++ sc :: v :=
        List.drop_append_of_le_length hlt
      rw [hdrop]
      cases hda : a.drop (k + 1) with
      | nil =>
        exfalso
        have := List.drop_eq_nil_iff.mp hda
        omega
      | cons d tail =>
        simp only [List.cons_append]
        have hd_mem : d ∈ a :=
          List.mem_of_mem_drop (hda ▸ List.mem_cons_self d tail)
        rw [wordChar_not_ws d (ha d hd_mem)]
        simp only [Bool.false_and, Bool.false_eq_true, if_false]
        exact ih (by omega)

lemma tryMatch3At_sep_none (a : List Char) (sc : Char) (v : List Char)
    (ha : ∀ c ∈ a, isWordChar c = true) (hsc : isWordChar sc = false)
    (hnpre : a = [] ∨ a.isPrefixOf v = false) :
    tryMatch3At (a ++ sc :: v) = none := by
  unfold tryMatch3At
  rw [takeWhile_word_append a ha sc hsc v]
  exact tryCapture3_sep_none a sc v ha hnpre a.length le_rfl

lemma rep2Fuel_id_of_no_ws :
    ∀ (fuel : Nat) (l : List Char), (∀ c ∈ l, isJsWhitespace c = false) →
      rep2Fuel fuel l = l := by
  intro fuel
  induction fuel with
  | zero => intro l _; rfl
  | succ fuel ih =>
    intro l hl
    cases l with
    | nil => rfl
    | cons c rest =>
      simp only [rep2Fuel]
      have hm : tryMatch2At (c :: rest) = none := by
        unfold tryMatch2At
        exact tryCapture2_none_of_no_ws _ hl _
      rw [hm]
      dsimp only
      rw [ih rest fun x hx => hl x (List.mem_cons_of_mem c hx)]

lemma rep3Fuel_id_of_few_ws :
    ∀ (fuel : Nat) (l : List Char), l.countP isJsWhitespace ≤ 1 →
      rep3Fuel fuel l = l := by
  intro fuel
  induction fuel with
  | zero => intro l _; rfl
  | succ fuel ih =>
    intro l hl
    cases l with
    | nil => rfl
    | cons c rest =>
      simp only [rep3Fuel]
      have hm : tryMatch3At (c :: rest) = none := by
        unfold tryMatch3At
        exact tryCapture3_none_of_few_ws _ hl _
      rw [hm]
      dsimp only
      have hrest : rest.countP isJsWhitespace ≤ 1 := by
        have := List.countP_cons isJsWhitespace c rest
        omega
      rw [ih rest hrest]

lemma rep2Fuel_double (w : List Char) (hw : w ≠ [])
    (hword : ∀ c ∈ w, isWordChar c = true) (fuel : Nat) :
    rep2Fuel (fuel + 1) (w ++ ' ' :: w) = w := by
  cases w with
  | nil => exact absurd rfl hw
  | cons x w2 =>
    have hm := tryMatch2At_repeat (x :: w2) [] hw hword
    rw [List.append_nil] at hm
    rw [List.cons_append] at hm
    simp only [List.cons_append, rep2Fuel, List.append_eq]
    rw [hm]
    dsimp only
    rw [rep2Fuel_nil, List.append_nil]

lemma rep3Fuel_triple (w : List Char) (hw : w ≠ [])
    (hword : ∀ c ∈ w, isWordChar c = true) (fuel : Nat) :
    rep3Fuel (fuel + 1) (w ++ ' ' :: (w ++ ' ' :: w)) = w ++ ' ' :: w := by
  cases w with
  | nil => exact absurd rfl hw
  | cons x w2 =>
    have hm := tryMatch3At_repeat (x :: w2) [] hw hword
    rw [List.append_nil] at hm
    simp only [List.cons_append] at hm
    simp only [List.cons_append, rep3Fuel, List.append_eq]
    rw [hm]
    dsimp only
    rw [rep3Fuel_nil, List.append_nil]
    rfl

lemma collWsGo_norm_words (w : List Char)
    (hw : ∀ c ∈ w, isJsWhitespace c = false) :
    collWsGo WsState.norm w = w := by
  induction w with
  | nil => rfl
  | cons c r ih =>
    have hc := hw c (List.mem_cons_self c r)
    simp only [collWsGo, hc, Bool.false_eq_true, if_false]
    rw [ih fun x hx => hw x (List.mem_cons_of_mem c hx)]

lemma mem_of_getLast?_eq {l : List Char} {a : Char} (h : l.getLast? = some a) :
    a ∈ l := by
  have hrev : l.reverse.head? = some a := by rw [List.head?_reverse]; exact h
  exact List.mem_reverse.mp (List.mem_of_mem_head? (Option.mem_def.mpr hrev))

lemma trimChars_id (l : List Char)
    (hhead : ∀ c, l.head? = some c → isJsWhitespace c = false)
    (hlast : ∀ c, l.getLast? = some c → isJsWhitespace c = false) :
    trimChars l = l := by
  unfold trimChars
  have h1 : l.dropWhile isJsWhitespace = l := by
    cases l with
    | nil => rfl
    | cons c r =>
      rw [List.dropWhile_cons, hhead c rfl]
      simp
  rw [h1]
  have h2 : l.reverse.dropWhile isJsWhitespace = l.reverse := by
    cases hr : l.reverse with
    | nil => rfl
    | cons c r =>
      have hlc : l.getLast? = some c := by
        rw [← List.head?_reverse, hr]
        rfl
      rw [List.dropWhile_cons, hlast c hlc]
      simp
  rw [h2, List.reverse_reverse]

lemma trimChars_words (l : List Char)
    (h : ∀ c ∈ l, isJsWhitespace c = false) : trimChars l = l :=
  trimChars_id l
    (fun c hc => h c (List.mem_of_mem_head? (Option.mem_def.mpr hc)))
    (fun c hc => h c (mem_of_getLast?_eq hc))

lemma countP_ws_words (l : List Char) (h : ∀ c ∈ l, isWordChar c = true) :
    l.countP isJsWhitespace = 0 :=
  List.countP_eq_zero.mpr fun a ha => by
    rw [wordChar_not_ws a (h a ha)]
    decide

lemma countP_ws_sep (x y : List Char)
    (hx : ∀ c ∈ x, isWordChar c = true) (hy : ∀ c ∈ y, isWordChar c = true) :
    (x ++ ' ' :: y).countP isJsWhitespace = 1 := by
  rw [List.countP_append, countP_ws_words x hx, List.countP_cons,
    countP_ws_words y hy, if_pos (by decide : isJsWhitespace ' ' = true)]

lemma tryMatch2At_nil : tryMatch2At [] = none := rfl

lemma tryMatch3At_nil : tryMatch3At [] = none := rfl

lemma tryMatch2At_ws_head (c : Char) (t : List Char)
    (hc : isJsWhitespace c = true) : tryMatch2At (c :: t) = none := by
  unfold tryMatch2At
  rw [List.takeWhile_cons, ws_not_wordChar c hc]
  simp only [Bool.false_eq_true, if_false, List.length_nil]
  rfl

lemma tryMatch3At_ws_head (c : Char) (t : List Char)
    (hc : isJsWhitespace c = true) : tryMatch3At (c :: t) = none := by
  unfold tryMatch3At
  rw [List.takeWhile_cons, ws_not_wordChar c hc]
  simp only [Bool.false_eq_true, if_false, List.length_nil]
  rfl

lemma tryMatch2At_of_no_ws (t : List Char)
    (h : ∀ c ∈ t, isJsWhitespace c = false) : tryMatch2At t = none :=
  tryCapture2_none_of_no_ws t h _

lemma tryMatch3At_of_no_ws (t : List Char)
    (h : ∀ c ∈ t, isJsWhitespace c = false) : tryMatch3At t = none :=
  tryCapture3_none_of_few_ws t
    (by rw [List.countP_eq_zero.mpr fun a ha => by simp [h a ha]]; omega) _

lemma word_head_not_prefixOf_ws (x : Char) (a' : List Char) (c : Char)
    (t : List Char) (hx : isWordChar x = true) (hc : isJsWhitespace c = true) :
    (x :: a').isPrefixOf (c :: t) = false := by
  have hne : (x == c) = false := by
    rw [beq_eq_false_iff_ne]
    rintro rfl
    rw [wordChar_not_ws x hx] at hc
    exact Bool.noConfusion hc
  simp [List.isPrefixOf, hne]

lemma word_isPrefixOf_append_ws (c : Char) (hc : isJsWhitespace c = true) :
    ∀ (a t r : List Char), (∀ ch ∈ a, isWordChar ch = true) →
      a.isPrefixOf (t ++ c :: r) = a.isPrefixOf t := by
  intro a
  induction a with
  | nil => intro t r _; simp [List.isPrefixOf]
  | cons x a' ih =>
    intro t r ha
    cases t with
    | nil =>
      simp only [List.nil_append]
      rw [word_head_not_prefixOf_ws x a' c r (ha x (List.mem_cons_self x a')) hc]
      rfl
    | cons y t' =>
      simp only [List.cons_append, List.isPrefixOf, List.append_eq]
      rw [ih t' r fun ch hch => ha ch (List.mem_cons_of_mem x hch)]

lemma suffix_append_cases {α : Type} (t x y : List α) (h : t <:+ x ++ y) :
    t <:+ y ∨ ∃ a, a <:+ x ∧ t = a ++ y := by
  induction x generalizing t with
  | nil => left; simpa using h
  | cons c x' ih =>
    rw [List.cons_append, List.suffix_cons_iff] at h
    rcases h with rfl | h
    · right
      exact ⟨c :: x', List.suffix_refl _, by rw [List.cons_append]⟩
    · rcases ih t h with h1 | ⟨a, ha, rfl⟩
      · left; exact h1
      · right; exact ⟨a, ha.trans (List.suffix_cons c x'), rfl⟩

lemma rep2Fuel_id_of_no_match :
    ∀ (fuel : Nat) (l : List Char),
      (∀ t, t <:+ l → tryMatch2At t = none) → rep2Fuel fuel l = l := by
  intro fuel
  induction fuel with
  | zero => intro l _; rfl
  | succ fuel ih =>
    intro l h
    cases l with
    | nil => rfl
    | cons c rest =>
      simp only [rep2Fuel]
      rw [h (c :: rest) (List.suffix_refl _)]
      dsimp only
      rw [ih rest fun t ht => h t (ht.trans (List.suffix_cons c rest))]

lemma rep3Fuel_id_of_no_match :
    ∀ (fuel : Nat) (l : List Char),
      (∀ t, t <:+ l → tryMatch3At t = none) → rep3Fuel fuel l = l := by
  intro fuel
  induction fuel with
  | zero => intro l _; rfl
  | succ fuel ih =>
    intro l h
    cases l with
    | nil => rfl
    | cons c rest =>
      simp only [rep3Fuel]
      rw [h (c :: rest) (List.suffix_refl _)]
      dsimp only
      rw [ih rest fun t ht => h t (ht.trans (List.suffix_cons c rest))]

/-- A transcript of words joined by single spaces. -/
def joinWords : List (List Char) → List Char
  | [] => []
  | [w] => w
  | w :: rest => w ++ ' ' :: joinWords rest

lemma joinWords_ne_nil (w : List Char) (rest : List (List Char))
    (hw : w ≠ []) : joinWords (w :: rest) ≠ [] := by
  cases rest with
  | nil => exact hw
  | cons w2 rest2 => simp [joinWords]

/-- Two adjacent words do not overlap: no non-empty suffix of the first
is a prefix of the second.  This is exactly the condition under which
the boundary-free backreference patterns cannot fire across their
boundary. -/
abbrev noOverlapPair (u₁ u₂ : List Char) : Prop :=
  ∀ s ∈ u₁.tails, s ≠ [] → s.isPrefixOf u₂ = false

lemma tryMatch2At_join_none :
    ∀ (wsl : List (List Char)), (∀ u ∈ wsl, u ≠ []) →
      (∀ u ∈ wsl, ∀ ch ∈ u, isWordChar ch = true) →
      List.Chain' noOverlapPair wsl →
      ∀ t, t <:+ joinWords wsl → tryMatch2At t = none := by
  intro wsl
  induction wsl with
  | nil =>
    intro _ _ _ t ht
    have ht0 : t = [] := by simpa [joinWords] using ht
    rw [ht0]
    exact tryMatch2At_nil
  | cons w rest ih =>
    intro hne hword hchain t ht
    cases rest with
    | nil =>
      refine tryMatch2At_of_no_ws t fun ch hch => ?_
      exact wordChar_not_ws ch
        (hword w (List.mem_cons_self w []) ch (ht.subset hch))
    | cons w₂ rest' =>
      rw [show joinWords (w :: w₂ :: rest') =
        w ++ ' ' :: joinWords (w₂ :: rest') from rfl] at ht
      rcases suffix_append_cases t w (' ' :: joinWords (w₂ :: rest')) ht with
        h1 | ⟨a, ha, rfl⟩
      · rcases List.suffix_cons_iff.mp h1 with rfl | h2
        · exact tryMatch2At_ws_head ' ' _ (by decide)
        · exact ih (fun u hu => hne u (List.mem_cons_of_mem w hu))
            (fun u hu => hword u (List.mem_cons_of_mem w hu)) hchain.tail t h2
      · cases a with
        | nil =>
          simp only [List.nil_append]
          exact tryMatch2At_ws_head ' ' _ (by decide)
        | cons xa a' =>
          have haw : ∀ ch ∈ xa :: a', isWordChar ch = true := fun ch hch =>
            hword w (List.mem_cons_self w _) ch (ha.subset hch)
          refine tryMatch2At_sep_none (xa :: a') ' ' _ haw (by decide) (Or.inr ?_)
          have hrel : noOverlapPair w w₂ := (List.chain'_cons.mp hchain).1
          have hnp : (xa :: a').isPrefixOf w₂ = false :=
            hrel (xa :: a') ((List.mem_tails _ _).mpr ha) (by simp)
          cases rest' with
          | nil => exact hnp
          | cons w₃ rest'' =>
            rw [show joinWords (w₂ :: w₃ :: rest'') =
              w₂ ++ ' ' :: joinWords (w₃ :: rest'') from rfl]
            rw [word_isPrefixOf_append_ws ' ' (by decide) (xa :: a') w₂ _ haw]
            exact hnp

lemma tryMatch3At_join_none :
    ∀ (wsl : List (List Char)), (∀ u ∈ wsl, u ≠ []) →
      (∀ u ∈ wsl, ∀ ch ∈ u, isWordChar ch = true) →
      List.Chain' noOverlapPair wsl →
      ∀ t, t <:+ joinWords wsl → tryMatch3At t = none := by
  intro wsl
  induction wsl with
  | nil =>
    intro _ _ _ t ht
    have ht0 : t = [] := by simpa [joinWords] using ht
    rw [ht0]
    exact tryMatch3At_nil
  | cons w rest ih =>
    intro hne hword hchain t ht
    cases rest with
    | nil =>
      refine tryMatch3At_of_no_ws t fun ch hch => ?_
      exact wordChar_not_ws ch
        (hword w (List.mem_cons_self w []) ch (ht.subset hch))
    | cons w₂ rest' =>
      rw [show joinWords (w :: w₂ :: rest') =
        w ++ ' ' :: joinWords (w₂ :: rest') from rfl] at ht
      rcases suffix_append_cases t w (' ' :: joinWords (w₂ :: rest')) ht with
        h1 | ⟨a, ha, rfl⟩
      · rcases List.suffix_cons_iff.mp h1 with rfl | h2
        · exact tryMatch3At_ws_head ' ' _ (by decide)
        · exact ih (fun u hu => hne u (List.mem_cons_of_mem w hu))
            (fun u hu => hword u (List.mem_cons_of_mem w hu)) hchain.tail t h2
      · cases a with
        | nil =>
          simp only [List.nil_append]
          exact tryMatch3At_ws_head ' ' _ (by decide)
        | cons xa a' =>
          have haw : ∀ ch ∈ xa :: a', isWordChar ch = true := fun ch hch =>
            hword w (List.mem_cons_self w _) ch (ha.subset hch)
          refine tryMatch3At_sep_none (xa :: a') ' ' _ haw (by decide) (Or.inr ?_)
          have hrel : noOverlapPair w w₂ := (List.chain'_cons.mp hchain).1
          have hnp : (xa :: a').isPrefixOf w₂ = false :=
            hrel (xa :: a') ((List.mem_tails _ _).mpr ha) (by simp)
          cases rest' with
          | nil => exact hnp
          | cons w₃ rest'' =>
            rw [show joinWords (w₂ :: w₃ :: rest'') =
              w₂ ++ ' ' :: joinWords (w₃ :: rest'') from rfl]
            rw [word_isPrefixOf_append_ws ' ' (by decide) (xa :: a') w₂ _ haw]
            exact hnp

lemma tryMatch2At_run_none (x y : List Char) (c1 c2 : Char) (r' : List Char)
    (hxw : ∀ ch ∈ x, isWordChar ch = true)
    (hyw : ∀ ch ∈ y, isWordChar ch = true)
    (hc1 : isJsWhitespace c1 = true) (hc2 : isJsWhitespace c2 = true)
    (hr' : ∀ ch ∈ r', isJsWhitespace ch = true) :
    ∀ t, t <:+ x ++ c1 :: c2 :: (r' ++ y) → tryMatch2At t = none := by
  intro t ht
  rcases suffix_append_cases t x (c1 :: c2 :: (r' ++ y)) ht with h1 | ⟨a, ha, rfl⟩
  · rcases List.suffix_cons_iff.mp h1 with rfl | h2
    · exact tryMatch2At_ws_head c1 _ hc1
    · rcases List.suffix_cons_iff.mp h2 with rfl | h3
      · exact tryMatch2At_ws_head c2 _ hc2
      · rcases suffix_append_cases t r' y h3 with h4 | ⟨b, hb, rfl⟩
        · exact tryMatch2At_of_no_ws t fun ch hch =>
            wordChar_not_ws ch (hyw ch (h4.subset hch))
        · cases b with
          | nil =>
            simp only [List.nil_append]
            exact tryMatch2At_of_no_ws y fun ch hch =>
              wordChar_not_ws ch (hyw ch hch)
          | cons d b' =>
            rw [List.cons_append]
            exact tryMatch2At_ws_head d _
              (hr' d (hb.subset (List.mem_cons_self d b')))
  · cases a with
    | nil =>
      simp only [List.nil_append]
      exact tryMatch2At_ws_head c1 _ hc1
    | cons xa a' =>
      have haw : ∀ ch ∈ xa :: a', isWordChar ch = true := fun ch hch =>
        hxw ch (ha.subset hch)
      refine tryMatch2At_sep_none (xa :: a') c1 (c2 :: (r' ++ y)) haw
        (ws_not_wordChar c1 hc1) (Or.inr ?_)
      exact word_head_not_prefixOf_ws xa a' c2 _
        (haw xa (List.mem_cons_self xa a')) hc2

lemma tryMatch3At_run_none (x y : List Char) (c1 c2 : Char) (r' : List Char)
    (hxw : ∀ ch ∈ x, isWordChar ch = true)
    (hyw : ∀ ch ∈ y, isWordChar ch = true)
    (hc1 : isJsWhitespace c1 = true) (hc2 : isJsWhitespace c2 = true)
    (hr' : ∀ ch ∈ r', isJsWhitespace ch = true) :
    ∀ t, t <:+ x ++ c1 :: c2 :: (r' ++ y) → tryMatch3At t = none := by
  intro t ht
  rcases suffix_append_cases t x (c1 :: c2 :: (r' ++ y)) ht with h1 | ⟨a, ha, rfl⟩
  · rcases List.suffix_cons_iff.mp h1 with rfl | h2
    · exact tryMatch3At_ws_head c1 _ hc1
    · rcases List.suffix_cons_iff.mp h2 with rfl | h3
      · exact tryMatch3At_ws_head c2 _ hc2
      · rcases suffix_append_cases t r' y h3 with h4 | ⟨b, hb, rfl⟩
        · exact tryMatch3At_of_no_ws t fun ch hch =>
            wordChar_not_ws ch (hyw ch (h4.subset hch))
        · cases b with
          | nil =>
            simp only [List.nil_append]
            exact tryMatch3At_of_no_ws y fun ch hch =>
              wordChar_not_ws ch (hyw ch hch)
          | cons d b' =>
            rw [List.cons_append]
            exact tryMatch3At_ws_head d _
              (hr' d (hb.subset (List.mem_cons_self d b')))
  · cases a with
    | nil =>
      simp only [List.nil_append]
      exact tryMatch3At_ws_head c1 _ hc1
    | cons xa a' =>
      have haw : ∀ ch ∈ xa :: a', isWordChar ch = true := fun ch hch =>
        hxw ch (ha.subset hch)
      refine tryMatch3At_sep_none (xa :: a') c1 (c2 :: (r' ++ y)) haw
        (ws_not_wordChar c1 hc1) (Or.inr ?_)
      exact word_head_not_prefixOf_ws xa a' c2 _
        (haw xa (List.mem_cons_self xa a')) hc2

lemma collWsGo_norm_id_of_chain :
    ∀ (n : Nat) (l : List Char), l.length ≤ n →
      List.Chain' (fun a b => isJsWhitespace a = false ∨ isJsWhitespace b = false) l →
      collWsGo WsState.norm l = l := by
  intro n
  induction n with
  | zero =>
    intro l hl _
    cases l with
    | nil => rfl
    | cons c r => simp at hl
  | succ n ih =>
    intro l hl hchain
    cases l with
    | nil => rfl
    | cons c r =>
      by_cases hc : isJsWhitespace c = true
      · simp only [collWsGo, if_pos hc]
        cases r with
        | nil => rfl
        | cons d r2 =>
          have hd : isJsWhitespace d = false := by
            rcases (List.chain'_cons.mp hchain).1 with h | h
            · rw [h] at hc; exact absurd hc (by simp)
            · exact h
          simp only [collWsGo, hd, Bool.false_eq_true, if_false]
          rw [ih r2 (by simp only [List.length_cons] at hl ⊢; omega)
            (List.chain'_cons.mp hchain).2.tail]
      · have hc' : isJsWhitespace c = false := by
          cases h : isJsWhitespace c
          · rfl
          · exact absurd h hc
        simp only [collWsGo, hc', Bool.false_eq_true, if_false]
        rw [ih r (by simp only [List.length_cons] at hl; omega) hchain.tail]

lemma noWsPair_of_all (l : List Char)
    (h : ∀ c ∈ l, isJsWhitespace c = false) :
    List.Chain' (fun a b => isJsWhitespace a = false ∨ isJsWhitespace b = false) l := by
  induction l with
  | nil => exact List.chain'_nil
  | cons c r ih =>
    rw [List.chain'_cons']
    exact ⟨fun y _ => Or.inl (h c (List.mem_cons_self c r)),
      ih fun a ha => h a (List.mem_cons_of_mem c ha)⟩

lemma noWsPair_joinWords :
    ∀ (wsl : List (List Char)), (∀ u ∈ wsl, u ≠ []) →
      (∀ u ∈ wsl, ∀ ch ∈ u, isWordChar ch = true) →
      List.Chain' (fun a b => isJsWhitespace a = false ∨ isJsWhitespace b = false)
        (joinWords wsl) := by
  intro wsl
  induction wsl with
  | nil => exact fun _ _ => List.chain'_nil
  | cons w rest ih =>
    intro hne hword
    cases rest with
    | nil =>
      exact noWsPair_of_all w fun ch hch =>
        wordChar_not_ws ch (hword w (List.mem_cons_self w []) ch hch)
    | cons w₂ rest' =>
      rw [show joinWords (w :: w₂ :: rest') =
        w ++ ' ' :: joinWords (w₂ :: rest') from rfl]
      rw [List.chain'_append]
      refine ⟨noWsPair_of_all w (fun ch hch =>
        wordChar_not_ws ch (hword w (List.mem_cons_self w _) ch hch)), ?_, ?_⟩
      · rw [List.chain'_cons']
        refine ⟨?_, ih (fun u hu => hne u (List.mem_cons_of_mem w hu))
          (fun u hu => hword u (List.mem_cons_of_mem w hu))⟩
        intro y hy
        right
        have hw₂ := hne w₂ (List.mem_cons_of_mem w (List.mem_cons_self w₂ rest'))
        cases hw2c : w₂ with
        | nil => exact absurd hw2c hw₂
        | cons d w₂' =>
          have hhead : (joinWords (w₂ :: rest')).head? = some d := by
            cases rest' with
            | nil => rw [show joinWords [w₂] = w₂ from rfl, hw2c]; rfl
            | cons w₃ rest'' =>
              rw [show joinWords (w₂ :: w₃ :: rest'') =
                w₂ ++ ' ' :: joinWords (w₃ :: rest'') from rfl, hw2c]
              rfl
          rw [hhead] at hy
          have hyd : y = d := by
            have := Option.mem_def.mp hy
            injection this with h
            exact h.symm
          subst hyd
          refine wordChar_not_ws y (hword w₂
            (List.mem_cons_of_mem w (List.mem_cons_self w₂ rest')) y ?_)
          rw [hw2c]
          exact List.mem_cons_self y w₂'
      · intro b hb y hy
        left
        exact wordChar_not_ws b (hword w (List.mem_cons_self w _) b
          (mem_of_getLast?_eq (Option.mem_def.mp hb)))

lemma collWsGo_run_exit (y : List Char)
    (hy : ∀ c ∈ y, isJsWhitespace c = false) :
    ∀ r', (∀ c ∈ r', isJsWhitespace c = true) →
      collWsGo WsState.run (r' ++ y) = ' ' :: y := by
  intro r'
  induction r' with
  | nil =>
    intro _
    cases y with
    | nil => rfl
    | cons d y2 =>
      have hd := hy d (List.mem_cons_self d y2)
      simp only [List.nil_append, collWsGo, hd, Bool.false_eq_true, if_false]
      rw [collWsGo_norm_id_of_chain y2.length y2 le_rfl
        (noWsPair_of_all y2 fun c hc => hy c (List.mem_cons_of_mem d hc))]
  | cons c r2 ih =>
    intro hr
    have hc := hr c (List.mem_cons_self c r2)
    simp only [List.cons_append, collWsGo, hc, if_pos]
    exact ih fun a ha => hr a (List.mem_cons_of_mem c ha)

lemma collWsGo_run_shape (x y : List Char) (c1 c2 : Char) (r' : List Char)
    (hx : ∀ c ∈ x, isJsWhitespace c = false)
    (hy : ∀ c ∈ y, isJsWhitespace c = false)
    (hc1 : isJsWhitespace c1 = true) (hc2 : isJsWhitespace c2 = true)
    (hr' : ∀ c ∈ r', isJsWhitespace c = true) :
    collWsGo WsState.norm (x ++ c1 :: c2 :: (r' ++ y)) = x ++ ' ' :: y := by
  induction x with
  | nil =>
    simp only [List.nil_append, collWsGo, if_pos hc1, if_pos hc2]
    exact collWsGo_run_exit y hy r' hr'
  | cons a x2 ih =>
    have ha := hx a (List.mem_cons_self a x2)
    simp only [List.cons_append, collWsGo, ha, Bool.false_eq_true, if_false,
      List.append_eq]
    rw [ih fun c hc => hx c (List.mem_cons_of_mem a hc)]

lemma joinWords_getLast_not_ws :
    ∀ (wsl : List (List Char)), (∀ u ∈ wsl, u ≠ []) →
      (∀ u ∈ wsl, ∀ ch ∈ u, isWordChar ch = true) →
      ∀ c, (joinWords wsl).getLast? = some c → isJsWhitespace c = false := by
  intro wsl
  induction wsl with
  | nil =>
    intro _ _ c hc
    exact absurd hc (by simp [joinWords])
  | cons w rest ih =>
    intro hne hword c hc
    cases rest with
    | nil =>
      exact wordChar_not_ws c (hword w (List.mem_cons_self w []) c
        (mem_of_getLast?_eq hc))
    | cons w₂ rest' =>
      rw [show joinWords (w :: w₂ :: rest') =
        w ++ ' ' :: joinWords (w₂ :: rest') from rfl] at hc
      rw [List.getLast?_append_of_ne_nil w (List.cons_ne_nil _ _)] at hc
      rw [show (' ' :: joinWords (w₂ :: rest')) =
        [' '] ++ joinWords (w₂ :: rest') from rfl] at hc
      rw [List.getLast?_append_of_ne_nil [' ']
        (joinWords_ne_nil w₂ rest'
          (hne w₂ (List.mem_cons_of_mem w (List.mem_cons_self w₂ rest'))))] at hc
      exact ih (fun u hu => hne u (List.mem_cons_of_mem w hu))
        (fun u hu => hword u (List.mem_cons_of_mem w hu)) c hc

lemma trimChars_joinWords (wsl : List (List Char))
    (hne : ∀ u ∈ wsl, u ≠ [])
    (hword : ∀ u ∈ wsl, ∀ ch ∈ u, isWordChar ch = true) :
    trimChars (joinWords wsl) = joinWords wsl := by
  cases wsl with
  | nil => rfl
  | cons w rest =>
    refine trimChars_id _ ?_ (joinWords_getLast_not_ws (w :: rest) hne hword)
    intro c hc
    have hw := hne w (List.mem_cons_self w rest)
    cases hwc : w with
    | nil => exact absurd hwc hw
    | cons d w' =>
      have hh : (joinWords (w :: rest)).head? = some d := by
        cases rest with
        | nil => rw [show joinWords [w] = w from rfl, hwc]; rfl
        | cons w₂ rest' =>
          rw [show joinWords (w :: w₂ :: rest') =
            w ++ ' ' :: joinWords (w₂ :: rest') from rfl, hwc]
          rfl
      rw [hh] at hc
      have hcd : c = d := by injection hc with h; exact h.symm
      subst hcd
      refine wordChar_not_ws c (hword w (List.mem_cons_self w rest) c ?_)
      rw [hwc]
      exact List.mem_cons_self c w'

/-- Claim C8, amended: the pre-clean collapses a transcript that is an
exact double or triple adjacent repetition of a word down to a single
occurrence of it; collapses a run of two or more whitespace characters
between two words to a single space; and leaves a transcript of words
joined by single spaces unchanged PROVIDED no non-empty suffix of any
word is a prefix of the word that follows it — without that proviso the
backreference patterns, which require no word boundary after the
repeated group, can also rewrite distinct adjacent words (for example
the theory becomes theory). -/
theorem C8_amended_preclean (w x y : List Char) (r : List Char)
    (wsl : List (List Char))
    (hw : w ≠ []) (hwword : ∀ c ∈ w, isWordChar c = true)
    (hx : x ≠ []) (hxword : ∀ c ∈ x, isWordChar c = true)
    (hy : y ≠ []) (hyword : ∀ c ∈ y, isWordChar c = true)
    (hrlen : 2 ≤ r.length) (hrws : ∀ c ∈ r, isJsWhitespace c = true)
    (hne : ∀ u ∈ wsl, u ≠ [])
    (hword : ∀ u ∈ wsl, ∀ c ∈ u, isWordChar c = true)
    (hchain : List.Chain' noOverlapPair wsl) :
    cleanTranscript (String.mk (w ++ ' ' :: w)) = String.mk w ∧
    cleanTranscript (String.mk (w ++ ' ' :: (w ++ ' ' :: w))) = String.mk w ∧
    cleanTranscript (String.mk (x ++ (r ++ y))) = String.mk (x ++ ' ' :: y) ∧
    cleanTranscript (String.mk (joinWords wsl)) = String.mk (joinWords wsl) := by
  have hwns : ∀ c ∈ w, isJsWhitespace c = false :=
    fun c hc => wordChar_not_ws c (hwword c hc)
  have hxns : ∀ c ∈ x, isJsWhitespace c = false :=
    fun c hc => wordChar_not_ws c (hxword c hc)
  have hyns : ∀ c ∈ y, isJsWhitespace c = false :=
    fun c hc => wordChar_not_ws c (hyword c hc)
  have hdouble : collapseDoubles (w ++ ' ' :: w) = w := by
    unfold collapseDoubles
    obtain ⟨f, hf⟩ : ∃ f, (w ++ ' ' :: w).length = f + 1 :=
      ⟨w.length + w.length, by simp [List.length_append]; omega⟩
    rw [hf]
    exact rep2Fuel_double w hw hwword f
  refine ⟨?_, ?_, ?_, ?_⟩
  · show String.mk (trimChars (collapseWs (collapseDoubles
      (collapseTriples (w ++ ' ' :: w))))) = String.mk w
    have h3 : collapseTriples (w ++ ' ' :: w) = w ++ ' ' :: w := by
      unfold collapseTriples
      refine rep3Fuel_id_of_few_ws _ _ ?_
      rw [countP_ws_sep w w hwword hwword]
    rw [h3, hdouble,
      show collapseWs w = w from collWsGo_norm_words w hwns,
      trimChars_words w hwns]
  · show String.mk (trimChars (collapseWs (collapseDoubles
      (collapseTriples (w ++ ' ' :: (w ++ ' ' :: w)))))) = String.mk w
    have h3 : collapseTriples (w ++ ' ' :: (w ++ ' ' :: w)) = w ++ ' ' :: w := by
      unfold collapseTriples
      obtain ⟨f, hf⟩ : ∃ f, (w ++ ' ' :: (w ++ ' ' :: w)).length = f + 1 :=
        ⟨(w ++ ' ' :: (w ++ ' ' :: w)).length - 1, by
          simp only [List.length_append, List.length_cons]
          omega⟩
      rw [hf]
      exact rep3Fuel_triple w hw hwword f
    rw [h3, hdouble,
      show collapseWs w = w from collWsGo_norm_words w hwns,
      trimChars_words w hwns]
  · obtain ⟨c1, c2, r', rfl⟩ : ∃ c1 c2 r', r = c1 :: c2 :: r' := by
      cases r with
      | nil => simp at hrlen
      | cons c1 r1 =>
        cases r1 with
        | nil => simp at hrlen
        | cons c2 r' => exact ⟨c1, c2, r', rfl⟩
    have hc1 : isJsWhitespace c1 = true := hrws c1 (List.mem_cons_self _ _)
    have hc2 : isJsWhitespace c2 = true :=
      hrws c2 (List.mem_cons_of_mem c1 (List.mem_cons_self _ _))
    have hr'w : ∀ c ∈ r', isJsWhitespace c = true := fun c hc =>
      hrws c (List.mem_cons_of_mem c1 (List.mem_cons_of_mem c2 hc))
    show String.mk (trimChars (collapseWs (collapseDoubles
      (collapseTriples (x ++ c1 :: c2 :: (r' ++ y)))))) = String.mk (x ++ ' ' :: y)
    have h3 : collapseTriples (x ++ c1 :: c2 :: (r' ++ y)) =
        x ++ c1 :: c2 :: (r' ++ y) := by
      unfold collapseTriples
      exact rep3Fuel_id_of_no_match _ _
        (tryMatch3At_run_none x y c1 c2 r' hxword hyword hc1 hc2 hr'w)
    have h2 : collapseDoubles (x ++ c1 :: c2 :: (r' ++ y)) =
        x ++ c1 :: c2 :: (r' ++ y) := by
      unfold collapseDoubles
      exact rep2Fuel_id_of_no_match _ _
        (tryMatch2At_run_none x y c1 c2 r' hxword hyword hc1 hc2 hr'w)
    have h1 : collapseWs (x ++ c1 :: c2 :: (r' ++ y)) = x ++ ' ' :: y :=
      collWsGo_run_shape x y c1 c2 r' hxns hyns hc1 hc2 hr'w
    have h0 : trimChars (x ++ ' ' :: y) = x ++ ' ' :: y := by
      refine trimChars_id _ ?_ ?_
      · intro c hc
        cases x with
        | nil => exact absurd rfl hx
        | cons a x2 =>
          rw [List.cons_append] at hc
          have ha : a = c := by injection hc
          subst ha
          exact hxns _ (List.mem_cons_self _ _)
      · intro c hc
        rw [List.getLast?_append_of_ne_nil x (List.cons_ne_nil ' ' y),
          show (' ' :: y) = [' '] ++ y from rfl,
          List.getLast?_append_of_ne_nil [' '] hy] at hc
        exact hyns c (mem_of_getLast?_eq hc)
    rw [h3, h2, h1, h0]
  · show String.mk (trimChars (collapseWs (collapseDoubles
      (collapseTriples (joinWords wsl))))) = String.mk (joinWords wsl)
    have h3 : collapseTriples (joinWords wsl) = joinWords wsl := by
      unfold collapseTriples
      exact rep3Fuel_id_of_no_match _ _
        (tryMatch3At_join_none wsl hne hword hchain)
    have h2 : collapseDoubles (joinWords wsl) = joinWords wsl := by
      unfold collapseDoubles
      exact rep2Fuel_id_of_no_match _ _
        (tryMatch2At_join_none wsl hne hword hchain)
    have h1 : collapseWs (joinWords wsl) = joinWords wsl :=
      collWsGo_norm_id_of_chain (joinWords wsl).length _ le_rfl
        (noWsPair_joinWords wsl hne hword)
    have h0 : trimChars (joinWords wsl) = joinWords wsl :=
      trimChars_joinWords wsl hne hword
    rw [h3, h2, h1, h0]

/-- Witness for the amended C8 at concrete words: a doubled and tripled
word, a two-character whitespace run between two words, and a
three-word transcript with no adjacent overlap. -/
theorem C8_amended_preclean_witness :
    cleanTranscript (String.mk ("go".data ++ ' ' :: "go".data)) =
      String.mk "go".data ∧
    cleanTranscript (String.mk ("go".data ++ ' ' ::
      ("go".data ++ ' ' :: "go".data))) = String.mk "go".data ∧
    cleanTranscript (String.mk ("up".data ++ ([' ', '\t'] ++ "down".data))) =
      String.mk ("up".data ++ ' ' :: "down".data) ∧
    cleanTranscript (String.mk (joinWords ["one".data, "two".data, "three".data])) =
      String.mk (joinWords ["one".data, "two".data, "three".data]) :=
  C8_amended_preclean "go".data "up".data "down".data [' ', '\t']
    ["one".data, "two".data, "three".data]
    (by decide) (by decide) (by decide) (by decide) (by decide) (by decide)
    (by decide) (by decide) (by decide) (by decide)
    (List.chain'_cons.mpr ⟨by decide,
      List.chain'_cons.mpr ⟨by decide, List.chain'_singleton _⟩⟩)

/-- Counterexample to claim C8 as stated: the transcript consisting of
the two distinct adjacent words the and theory is not left intact — the
double-repetition pattern matches the-space-the across the word
boundary inside theory and deletes the first word, yielding theory. -/
theorem C8_distinct_words_counterexample :
    cleanTranscript "the theory" = "theory" ∧
    "the theory" = "the" ++ " " ++ "theory" ∧
    ("the" : String) ≠ "theory" := by
  exact ⟨by decide, by decide, by decide⟩
